import Mathlib

/-!
Verification of the secret-santa assignment engine (`secretsanta.py`) and the
bot operations built on it (`bot.py`).

The engine is embedded shallowly: SQLAlchemy rows become Lean structures, the
mutating methods become state-passing functions, and Python exceptions become
explicit `Except` errors.  The pseudo-random shuffle `random.sample` (Python
standard library, external to this repository) is abstracted as a function
`sample : Nat → List Participant → List Participant` of the seed; where a
property depends on it, we assume only that it returns a permutation of its
input, which `random.sample(l, k=len(l))` always does.
-/

/-- The Python exceptions raised by the modelled code paths. -/
inductive PyError where
  | typeError
  | valueError
  | runtimeError
  | indexError
  | zeroDivisionError
  deriving DecidableEq, Repr

/-- The exact set of characters matched by the Python 3 regex class
backslash-s on `str` patterns, which coincides with `str.isspace` per
character: the ASCII controls 0x09-0x0D and 0x1C-0x1F, the space 0x20, and
the Unicode whitespace 0x85, 0xA0, 0x1680, 0x2000-0x200A, 0x2028, 0x2029,
0x202F, 0x205F and 0x3000.  Used by `Person.normalize_name`. -/
def isSpaceChar (c : Char) : Bool :=
  (0x09 ≤ c.val && c.val ≤ 0x0D) || (0x1C ≤ c.val && c.val ≤ 0x20) ||
  c.val == 0x85 || c.val == 0xA0 || c.val == 0x1680 ||
  (0x2000 ≤ c.val && c.val ≤ 0x200A) || c.val == 0x2028 || c.val == 0x2029 ||
  c.val == 0x202F || c.val == 0x205F || c.val == 0x3000

/-- Whether a string consists of ASCII characters only.  On such strings the
embedded normalization below agrees exactly with the source: Python
`str.lower` restricted to ASCII is the A-Z to a-z mapping with no special
casing, and the whitespace class restricted to ASCII is `isSpaceChar`
restricted to ASCII. -/
def asciiName (s : String) : Bool :=
  s.toList.all (fun c => c.val < 128)

/-- `Person.normalize_name`: lowercase the name, then delete every whitespace
character (`re.sub` with the whitespace class and empty replacement).  The
whitespace class is Python's exactly; the lowercasing is the ASCII case
mapping (`Char.toLower`), whereas Python `str.lower` performs full Unicode
case mapping.  The two normalizations therefore coincide on names satisfying
`asciiName`, and theorems whose meaning depends on normalization
(derangement, cycle closure, inverses, reproducibility) carry that
hypothesis to stay within the faithful domain. -/
def normalize_name (name : String) : String :=
  ((name.toList.map Char.toLower).filter (fun c => !(isSpaceChar c))).asString

/-- Python string comparison is lexicographic on code points; on the
character lists of two strings it is this strict order. -/
def charListLT : List Char → List Char → Bool
  | _, [] => false
  | [], _ :: _ => true
  | a :: as, b :: bs => a < b || (a == b && charListLT as bs)

/-- Python `s1 < s2` on strings. -/
def strLT (s t : String) : Bool := charListLT s.toList t.toList

/-- Python `s1 <= s2` on strings: the negation of the reverse strict order. -/
def strLE (s t : String) : Bool := !(strLT t s)

/-- A row of the `person` table.  Only the fields the engine reads are kept;
`id`, team and relationship columns are adapter plumbing. -/
structure Person where
  name : String
  chat_source : Option String := none
  chat_id : Option String := none
  email : Option String := none
  force_email : Bool := false
  deriving DecidableEq, Repr

/-- `Person.__eq__`: two persons are equal iff their normalized names agree. -/
def personEq (p q : Person) : Bool :=
  normalize_name p.name == normalize_name q.name

/-- A row of the `participants` association table: a person together with the
nullable `ordering` slot and nullable `seen` timestamp. -/
structure Participant where
  person : Person
  ordering : Option Nat := none
  seen : Option Nat := none
  deriving DecidableEq, Repr

/-- The `secretsanta` table row: a name, a nullable seed and the list of
participant rows (admins are not needed for the verified operations). -/
structure SecretSanta where
  name : String
  seed : Option Nat := none
  participants : List Participant := []
  deriving DecidableEq, Repr

/-- `SecretSanta.add_participant`: append a fresh participant row whose
`ordering` and `seen` columns are NULL. -/
def add_participant (s : SecretSanta) (person : Person) : SecretSanta :=
  { s with participants := s.participants ++ [{ person := person }] }

/-- `SecretSanta.__init__`: the membership type check is enforced by typing
here; each person is added through `add_participant`. -/
def mkSecretSanta (name : String) (people : List Person)
    (seed : Option Nat := none) : SecretSanta :=
  people.foldl add_participant { name := name, seed := seed, participants := [] }

/-- Comparison used by `sorted(self.participants, key=attrgetter("participant.normalized_name"))`. -/
def nameLE (a b : Participant) : Bool :=
  strLE (normalize_name a.person.name) (normalize_name b.person.name)

/-- The sort relation of `nameLE` as a decidable proposition.  Python
`sorted` is a stable sort with respect to this total preorder, which is
modelled here by the (equally stable) insertion sort. -/
def nameLEr (a b : Participant) : Prop := nameLE a b = true

instance : DecidableRel nameLEr :=
  fun a b => inferInstanceAs (Decidable (nameLE a b = true))

/-- The `for place, participant in enumerate(sorted_participants)` loop of
`generate_ordering`: slot `place*10`, optionally clearing `seen`. -/
def assign_orderings (reset_seen : Bool) : Nat → List Participant → List Participant
  | _, [] => []
  | place, part :: rest =>
    { part with ordering := some (place * 10),
                seen := if reset_seen then none else part.seen }
      :: assign_orderings reset_seen (place + 1) rest

/-- `SecretSanta.generate_ordering`.  `sample` stands for the seeded
`random.sample(l, k=len(l))` shuffle and `newSeed` for the value
`random.randint(0, 4_294_967_295)` would produce.  The guard `RuntimeError`
is raised before any mutation, so the state component is returned unchanged
on that branch. -/
def generate_ordering (sample : Nat → List Participant → List Participant)
    (newSeed : Nat) (s : SecretSanta) (force : Bool) (reset_seen : Bool) :
    Except PyError Unit × SecretSanta :=
  if !force && s.participants.any (fun p => p.ordering.isSome) then
    (Except.error PyError.runtimeError, s)
  else
    let sorted_participants := s.participants.insertionSort nameLEr
    let seed := if s.seed.isNone || force then newSeed else s.seed.getD 0
    let shuffled := sample seed sorted_participants
    (Except.ok (),
     { s with seed := some seed,
              participants := assign_orderings reset_seen 0 shuffled })

/-- The for/break/else loop of `SecretSanta.update_seen`: stamp the first
participant equal to `person`, or report failure when none matches. -/
def update_seen_list (person : Person) (now : Nat) :
    List Participant → Option (List Participant)
  | [] => none
  | part :: rest =>
    if personEq part.person person then
      some ({ part with seen := some now } :: rest)
    else
      (update_seen_list person now rest).map (part :: ·)

/-- `SecretSanta.update_seen`: the else-branch of the loop raises
`IndexError`. -/
def update_seen (s : SecretSanta) (person : Person) (now : Nat) :
    Except PyError Unit × SecretSanta :=
  match update_seen_list person now s.participants with
  | some l => (Except.ok (), { s with participants := l })
  | none => (Except.error PyError.indexError, s)

/-- Comparison used by `sorted(participants, key=attrgetter("ordering"))`;
the rows reaching it are pre-filtered to non-NULL `ordering`. -/
def orderingLE (a b : Participant) : Bool :=
  a.ordering.getD 0 ≤ b.ordering.getD 0

/-- The sort relation of `orderingLE` as a decidable proposition. -/
def orderingLEr (a b : Participant) : Prop := orderingLE a b = true

instance : DecidableRel orderingLEr :=
  fun a b => inferInstanceAs (Decidable (orderingLE a b = true))

/-- `SecretSanta.get_ordered_list`: keep rows with a non-NULL ordering, sort
ascending by it, project to the person. -/
def get_ordered_list (s : SecretSanta) : List Person :=
  ((s.participants.filter (fun p => p.ordering.isSome)).insertionSort orderingLEr).map
    (fun p => p.person)

/-- Python `list.index` under `Person.__eq__`: first matching index, or a
`ValueError` (`none`) when the person does not occur. -/
def list_index (l : List Person) (person : Person) : Option Nat :=
  match l with
  | [] => none
  | q :: rest =>
    if personEq q person then some 0
    else (list_index rest person).map (fun i => i + 1)

/-- An argument crossing the public interface: either an actual `Person` or
some other Python value (rejected by the `isinstance` guard). -/
inductive PyVal where
  | person (p : Person)
  | notPerson
  deriving DecidableEq, Repr

/-- Body of `SecretSanta.has_who` after the `isinstance` guard, on the local
`secret_santa = self.get_ordered_list()`: `list.index` raises `ValueError`
before the modulo is evaluated; the modulo would raise `ZeroDivisionError`
on an empty list; the list access itself could raise `IndexError`. -/
def has_who_list (secret_santa : List Person) (person : Person) : Except PyError Person :=
  match list_index secret_santa person with
  | none => Except.error PyError.valueError
  | some i =>
    if secret_santa.length = 0 then Except.error PyError.zeroDivisionError
    else
      match secret_santa[(i + 1) % secret_santa.length]? with
      | some q => Except.ok q
      | none => Except.error PyError.indexError

/-- `SecretSanta.has_who` with the `isinstance` guard made explicit. -/
def has_who_checked (s : SecretSanta) (arg : PyVal) : Except PyError Person :=
  match arg with
  | PyVal.notPerson => Except.error PyError.typeError
  | PyVal.person person => has_who_list (get_ordered_list s) person

/-- `SecretSanta.has_who` applied to an actual person. -/
def has_who (s : SecretSanta) (person : Person) : Except PyError Person :=
  has_who_checked s (PyVal.person person)

/-- Body of `SecretSanta.who_has`, with Python integer semantics: `i - 1` may
be negative and Python `%` on a positive divisor is Euclidean, exactly as
`Int.emod`. -/
def who_has_list (secret_santa : List Person) (person : Person) : Except PyError Person :=
  match list_index secret_santa person with
  | none => Except.error PyError.valueError
  | some i =>
    if secret_santa.length = 0 then Except.error PyError.zeroDivisionError
    else
      match secret_santa[(((i : Int) - 1) % (secret_santa.length : Int)).toNat]? with
      | some q => Except.ok q
      | none => Except.error PyError.indexError

/-- `SecretSanta.who_has` with the `isinstance` guard made explicit. -/
def who_has_checked (s : SecretSanta) (arg : PyVal) : Except PyError Person :=
  match arg with
  | PyVal.notPerson => Except.error PyError.typeError
  | PyVal.person person => who_has_list (get_ordered_list s) person

/-- `SecretSanta.who_has` applied to an actual person. -/
def who_has (s : SecretSanta) (person : Person) : Except PyError Person :=
  who_has_checked s (PyVal.person person)

/-- Repeated application of `has_who`, used to state the cycle-closure
property; a failing query aborts the iteration. -/
def has_who_iter (s : SecretSanta) (person : Person) : Nat → Option Person
  | 0 => some person
  | k + 1 => (has_who_iter s person k).bind (fun q => (has_who s q).toOption)

/-- Messages the bot posts back to the channel in `remove_person`. -/
inductive BotMsg where
  | couldNotFind (name : String)
  | removedPerson (name : String)
  deriving DecidableEq, Repr

/-- `SlackBot.get_participant_by_name`: first participant whose normalized
name matches the normalized query. -/
def get_participant_by_name (s : SecretSanta) (name : String) : Option Participant :=
  s.participants.find? (fun p => normalize_name p.person.name == normalize_name name)

/-- `Bot.remove_person` (src/bot.py lines 220-235).  When the lookup fails the
handler posts the could-not-find message but, lacking a `return`, falls
through to `participants.remove(None)`, which raises `ValueError` and leaves
the list unchanged.  When it succeeds, `list.remove` deletes exactly the
found row (the first name match; an earlier structurally-equal row would
itself be an earlier name match, so `List.erase` removes the same row the
Python identity-based `remove` does). -/
def remove_person (s : SecretSanta) (name : String) :
    List BotMsg × Except PyError Unit × SecretSanta :=
  match get_participant_by_name s name with
  | none =>
    ([BotMsg.couldNotFind name], Except.error PyError.valueError, s)
  | some part =>
    ([BotMsg.removedPerson name], Except.ok (),
     { s with participants := s.participants.erase part })

/-- The DRAWN-state test used by the `generate_ordering` guard: some
participant row has a non-NULL `ordering`. -/
def drawn (s : SecretSanta) : Bool :=
  s.participants.any (fun p => p.ordering.isSome)

/-- The all-or-nothing shape of a draw: every participant ordered, or none. -/
def AllOrNone (s : SecretSanta) : Prop :=
  (∀ q ∈ s.participants, q.ordering.isSome = true) ∨
  (∀ q ∈ s.participants, q.ordering = none)

/-- `sample` behaves like `random.sample(l, k=len(l))`: for every seed it
returns a permutation of its input. -/
def returnsPerm (sample : Nat → List Participant → List Participant) : Prop :=
  ∀ seed l, (sample seed l).Perm l

/-- Engine states reachable through the public operations, exactly as the
claim lists them: construction, `add_participant` (at any time),
`generate_ordering`, `update_seen` and removal. -/
inductive Reachable : SecretSanta → Prop where
  | init (name : String) (people : List Person) (seed : Option Nat) :
      Reachable (mkSecretSanta name people seed)
  | add (s : SecretSanta) (p : Person) : Reachable s → Reachable (add_participant s p)
  | gen (s : SecretSanta) (sample : Nat → List Participant → List Participant)
      (ns : Nat) (force reset_seen : Bool) : Reachable s →
      Reachable (generate_ordering sample ns s force reset_seen).2
  | seen (s : SecretSanta) (p : Person) (now : Nat) : Reachable s →
      Reachable (update_seen s p now).2
  | remove (s : SecretSanta) (n : String) : Reachable s →
      Reachable (remove_person s n).2.2

/-- Reachability with `add_participant` restricted to undrawn engines (the
amendment claim C8 is corrected to). -/
inductive ReachableU : SecretSanta → Prop where
  | init (name : String) (people : List Person) (seed : Option Nat) :
      ReachableU (mkSecretSanta name people seed)
  | add (s : SecretSanta) (p : Person) : ReachableU s →
      (∀ q ∈ s.participants, q.ordering = none) → ReachableU (add_participant s p)
  | gen (s : SecretSanta) (sample : Nat → List Participant → List Participant)
      (ns : Nat) (force reset_seen : Bool) : ReachableU s →
      ReachableU (generate_ordering sample ns s force reset_seen).2
  | seen (s : SecretSanta) (p : Person) (now : Nat) : ReachableU s →
      ReachableU (update_seen s p now).2
  | remove (s : SecretSanta) (n : String) : ReachableU s →
      ReachableU (remove_person s n).2.2

/-! Concrete fixtures used by witnesses and counterexamples. -/

/-- A possible output of the external shuffle: the identity permutation. -/
def idSample : Nat → List Participant → List Participant := fun _ l => l

/-- A possible output of the external shuffle: swap the first two rows. -/
def swapSample : Nat → List Participant → List Participant := fun _ l =>
  match l with
  | a :: b :: t => b :: a :: t
  | l => l

def alice : Person := { name := "Alice" }
def bob : Person := { name := "Bob" }
def carol : Person := { name := "Carol" }
def joA : Person := { name := "Jo Anne" }
def joB : Person := { name := "joanne" }

/-- A two-person engine after a successful draw. -/
def drawnTwo : SecretSanta :=
  (generate_ordering idSample 0 (mkSecretSanta "w" [alice, bob] (some 3)) false true).2

/-- A three-person engine after a successful draw. -/
def drawnThree : SecretSanta :=
  (generate_ordering idSample 0 (mkSecretSanta "t" [alice, bob, carol] (some 7)) false true).2

/-- A one-person engine (the degenerate draw of claim C6). -/
def solo : SecretSanta := mkSecretSanta "solo" [alice] (some 1)

/-- Two participants whose distinct raw names share a normalized name. -/
def dupTwo : SecretSanta := mkSecretSanta "dup" [joA, joB] (some 3)

/-- Name collision with a third, distinct participant in between. -/
def dupThree : SecretSanta := mkSecretSanta "dup3" [joA, bob, joB] (some 3)

/-- The colliding two-person engine after its draw. -/
def dupTwoDrawn : SecretSanta := (generate_ordering idSample 0 dupTwo false true).2

/-- The colliding three-person engine after a draw whose shuffle swaps the
first two rows of the sorted list. -/
def dupThreeDrawn : SecretSanta := (generate_ordering swapSample 0 dupThree false true).2

/-! Helper lemmas about the embedded operations. -/

theorem list_index_lt {l : List Person} {p : Person} {i : Nat}
    (h : list_index l p = some i) : i < l.length := by
  induction l generalizing i with
  | nil => simp [list_index] at h
  | cons q rest ih =>
    rw [list_index] at h
    by_cases hq : personEq q p
    · simp [hq] at h
      simp only [List.length_cons]
      omega
    · simp [hq] at h
      obtain ⟨j, hj, rfl⟩ := h
      have := ih hj
      simp only [List.length_cons]
      omega

theorem has_who_list_ok {l : List Person} {p : Person} {i : Nat}
    (h : list_index l p = some i) :
    ∃ hlt : (i + 1) % l.length < l.length,
      has_who_list l p = Except.ok (l.get ⟨(i + 1) % l.length, hlt⟩) := by
  have hi := list_index_lt h
  have hpos : 0 < l.length := Nat.lt_of_le_of_lt (Nat.zero_le _) hi
  have hlt : (i + 1) % l.length < l.length := Nat.mod_lt _ hpos
  refine ⟨hlt, ?_⟩
  rw [has_who_list, h]
  simp only [Nat.ne_of_gt hpos, if_neg (Nat.pos_iff_ne_zero.mp hpos)]
  rw [List.getElem?_eq_getElem hlt]
  rfl

theorem who_has_list_ok {l : List Person} {p : Person} {i : Nat}
    (h : list_index l p = some i) :
    ∃ hlt : ((((i : Int) - 1) % (l.length : Int)).toNat) < l.length,
      who_has_list l p =
        Except.ok (l.get ⟨(((i : Int) - 1) % (l.length : Int)).toNat, hlt⟩) := by
  have hi := list_index_lt h
  have hpos : 0 < l.length := Nat.lt_of_le_of_lt (Nat.zero_le _) hi
  have hne : (l.length : Int) ≠ 0 := by exact_mod_cast Nat.pos_iff_ne_zero.mp hpos
  have h0 : 0 ≤ ((i : Int) - 1) % (l.length : Int) := Int.emod_nonneg _ hne
  have h1 : ((i : Int) - 1) % (l.length : Int) < (l.length : Int) :=
    Int.emod_lt_of_pos _ (by exact_mod_cast hpos)
  have hlt : ((((i : Int) - 1) % (l.length : Int)).toNat) < l.length := by omega
  refine ⟨hlt, ?_⟩
  rw [who_has_list, h]
  simp only [if_neg (Nat.pos_iff_ne_zero.mp hpos)]
  rw [List.getElem?_eq_getElem hlt]
  rfl

/-- C4: on an engine in the DRAWN state (some participant has a non-null
ordering), `generate` with `force=False` fails with `AlreadyDrawn`
(`RuntimeError` in the source) and returns the engine state completely
unchanged: same participant rows (orderings and seen fields included) and
same seed. -/
theorem generate_redraw_guard (sample : Nat → List Participant → List Participant)
    (newSeed : Nat) (s : SecretSanta) (reset_seen : Bool)
    (h : drawn s = true) :
    generate_ordering sample newSeed s false reset_seen =
      (Except.error PyError.runtimeError, s) := by
  unfold drawn at h
  simp [generate_ordering, h]

/-- C4 witness: the guard fires on a concrete two-person drawn engine. -/
theorem generate_redraw_guard_witness :
    drawn drawnTwo = true ∧
    generate_ordering idSample 7 drawnTwo false true =
      (Except.error PyError.runtimeError, drawnTwo) :=
  ⟨by decide, generate_redraw_guard idSample 7 drawnTwo true (by decide)⟩

/-- C9: adding a participant to a drawn engine appends a row with NULL
ordering and NULL seen, leaves all existing rows (hence their orderings)
unchanged, and does not change `get_ordered_list` until the next draw. -/
theorem add_after_draw (s : SecretSanta) (p : Person) (_h : drawn s = true) :
    (add_participant s p).participants =
      s.participants ++ [{ person := p, ordering := none, seen := none }] ∧
    get_ordered_list (add_participant s p) = get_ordered_list s := by
  refine ⟨rfl, ?_⟩
  unfold get_ordered_list add_participant
  rw [List.filter_append]
  simp

/-- C9 witness: instantiated on the drawn two-person engine and `carol`. -/
theorem add_after_draw_witness :
    drawn drawnTwo = true ∧
    (add_participant drawnTwo carol).participants =
      drawnTwo.participants ++ [{ person := carol, ordering := none, seen := none }] ∧
    get_ordered_list (add_participant drawnTwo carol) = get_ordered_list drawnTwo :=
  ⟨by decide, (add_after_draw drawnTwo carol (by decide)).1,
    (add_after_draw drawnTwo carol (by decide)).2⟩

/-- C10: the two queries are total and safe at the public interface: a
non-Person argument is rejected with `TypeError`; a person absent from the
ordered list (including the empty list before any draw) fails with
`ValueError` raised by `list.index` before the modulo is evaluated; and the
`ZeroDivisionError` and `IndexError` branches of the subscript expression
are unreachable.  Both queries are pure functions of the engine state in
this embedding, mirroring the absence of any mutation in the source. -/
theorem queries_safe (s : SecretSanta) (arg : PyVal) :
    has_who_checked s arg ≠ Except.error PyError.zeroDivisionError ∧
    has_who_checked s arg ≠ Except.error PyError.indexError ∧
    who_has_checked s arg ≠ Except.error PyError.zeroDivisionError ∧
    who_has_checked s arg ≠ Except.error PyError.indexError ∧
    (arg = PyVal.notPerson →
      has_who_checked s arg = Except.error PyError.typeError ∧
      who_has_checked s arg = Except.error PyError.typeError) ∧
    (∀ p, arg = PyVal.person p → list_index (get_ordered_list s) p = none →
      has_who_checked s arg = Except.error PyError.valueError ∧
      who_has_checked s arg = Except.error PyError.valueError) := by
  cases arg with
  | notPerson =>
    refine ⟨by simp [has_who_checked], by simp [has_who_checked],
      by simp [who_has_checked], by simp [who_has_checked],
      fun _ => ⟨rfl, rfl⟩, fun p hp => by simp at hp⟩
  | person p =>
    have hhw : has_who_checked s (PyVal.person p) = has_who_list (get_ordered_list s) p := rfl
    have hwh : who_has_checked s (PyVal.person p) = who_has_list (get_ordered_list s) p := rfl
    cases hidx : list_index (get_ordered_list s) p with
    | none =>
      have h1 : has_who_list (get_ordered_list s) p = Except.error PyError.valueError := by
        rw [has_who_list, hidx]
      have h2 : who_has_list (get_ordered_list s) p = Except.error PyError.valueError := by
        rw [who_has_list, hidx]
      rw [hhw, hwh, h1, h2]
      exact ⟨by simp, by simp, by simp, by simp, by simp, fun q hq _ => by
        cases hq; exact ⟨rfl, rfl⟩⟩
    | some i =>
      obtain ⟨hlt1, h1⟩ := has_who_list_ok hidx
      obtain ⟨hlt2, h2⟩ := who_has_list_ok hidx
      rw [hhw, hwh, h1, h2]
      exact ⟨by simp, by simp, by simp, by simp, by simp,
        fun q hq hnone => by cases hq; rw [hidx] at hnone; cases hnone⟩

/-- C10 witness: instantiated on the drawn two-person engine, once with a
genuine person and once with a non-Person argument. -/
theorem queries_safe_witness :
    (has_who_checked drawnTwo (PyVal.person alice) ≠ Except.error PyError.zeroDivisionError ∧
     has_who_checked drawnTwo (PyVal.person alice) ≠ Except.error PyError.indexError ∧
     who_has_checked drawnTwo (PyVal.person alice) ≠ Except.error PyError.zeroDivisionError ∧
     who_has_checked drawnTwo (PyVal.person alice) ≠ Except.error PyError.indexError ∧
     (PyVal.person alice = PyVal.notPerson →
       has_who_checked drawnTwo (PyVal.person alice) = Except.error PyError.typeError ∧
       who_has_checked drawnTwo (PyVal.person alice) = Except.error PyError.typeError) ∧
     (∀ p, PyVal.person alice = PyVal.person p →
       list_index (get_ordered_list drawnTwo) p = none →
       has_who_checked drawnTwo (PyVal.person alice) = Except.error PyError.valueError ∧
       who_has_checked drawnTwo (PyVal.person alice) = Except.error PyError.valueError)) ∧
    has_who_checked drawnTwo PyVal.notPerson = Except.error PyError.typeError :=
  ⟨queries_safe drawnTwo (PyVal.person alice),
   ((queries_safe drawnTwo PyVal.notPerson).2.2.2.2.1 rfl).1⟩

/-- C6: drawing an engine with a single participant does not fail; it
silently succeeds and produces the self-referential cycle the spec forbids:
`has_who(alice)` returns `alice` herself. -/
theorem generate_single_self_assignment :
    (generate_ordering idSample 0 solo false true).1 = Except.ok () ∧
    has_who (generate_ordering idSample 0 solo false true).2 alice = Except.ok alice ∧
    personEq alice alice = true :=
  ⟨rfl, rfl, rfl⟩

/-- C7: on the concrete drawn three-person engine, removing a present person
deletes exactly that participant row, but removing an absent name posts the
could-not-find message and then raises `ValueError` (from
`participants.remove(None)`, reached because the not-found branch lacks a
`return`) instead of failing cleanly with `NotFound`; the participant set is
left unchanged on that branch. -/
theorem remove_person_behavior :
    remove_person drawnThree "dave" =
      ([BotMsg.couldNotFind "dave"], Except.error PyError.valueError, drawnThree) ∧
    ((remove_person drawnThree "bob").2.2.participants.map
      (fun q => q.person.name) = ["Alice", "Carol"]) ∧
    (remove_person drawnThree "bob").1 = [BotMsg.removedPerson "bob"] ∧
    (remove_person drawnThree "bob").2.1 = Except.ok () :=
  ⟨rfl, rfl, rfl, rfl⟩

/-! Order facts about the Python string comparison. -/

theorem charListLT_irrefl : ∀ l, charListLT l l = false
  | [] => rfl
  | a :: as => by
    rw [charListLT]
    simp [charListLT_irrefl as]

theorem charListLT_asymm : ∀ {l₁ l₂ : List Char},
    charListLT l₁ l₂ = true → charListLT l₂ l₁ = false
  | _, [], h => by rw [charListLT] at h; cases h
  | [], _ :: _, _ => rfl
  | a :: as, b :: bs, h => by
    rw [charListLT] at h ⊢
    simp only [Bool.or_eq_true, Bool.and_eq_true, decide_eq_true_eq, beq_iff_eq] at h
    rcases h with h | ⟨rfl, h⟩
    · simp [not_lt_of_gt h, ne_of_gt h, (ne_of_gt h).symm]
    · simp [lt_irrefl, charListLT_asymm h]

theorem charListLT_trans : ∀ {l₁ l₂ l₃ : List Char},
    charListLT l₁ l₂ = true → charListLT l₂ l₃ = true → charListLT l₁ l₃ = true
  | _, _, [], _, h₂ => by rw [charListLT] at h₂; cases h₂
  | _, [], _ :: _, h₁, _ => by rw [charListLT] at h₁; cases h₁
  | [], _ :: _, _ :: _, _, _ => rfl
  | a :: as, b :: bs, c :: cs, h₁, h₂ => by
    rw [charListLT] at h₁ h₂ ⊢
    simp only [Bool.or_eq_true, Bool.and_eq_true, decide_eq_true_eq, beq_iff_eq] at h₁ h₂ ⊢
    rcases h₁ with h₁ | ⟨rfl, h₁⟩ <;> rcases h₂ with h₂ | ⟨rfl, h₂⟩
    · exact Or.inl (lt_trans h₁ h₂)
    · exact Or.inl h₁
    · exact Or.inl h₂
    · exact Or.inr ⟨rfl, charListLT_trans h₁ h₂⟩

theorem charListLT_connex : ∀ {l₁ l₂ : List Char},
    charListLT l₁ l₂ = false → charListLT l₂ l₁ = false → l₁ = l₂
  | [], [], _, _ => rfl
  | [], _ :: _, h₁, _ => by rw [charListLT] at h₁; cases h₁
  | _ :: _, [], _, h₂ => by rw [charListLT] at h₂; cases h₂
  | a :: as, b :: bs, h₁, h₂ => by
    rw [charListLT] at h₁ h₂
    simp only [Bool.or_eq_false_iff, Bool.and_eq_false_iff, decide_eq_false_iff_not,
      beq_eq_false_iff_ne, ne_eq] at h₁ h₂
    have hab : a = b := le_antisymm (not_lt.mp h₂.1) (not_lt.mp h₁.1)
    subst hab
    rcases h₁.2 with h | h
    · exact absurd rfl h
    · rcases h₂.2 with h2 | h2
      · exact absurd rfl h2
      · rw [charListLT_connex h h2]

theorem strLE_refl (s : String) : strLE s s = true := by
  simp [strLE, strLT, charListLT_irrefl]

theorem strLE_total (s t : String) : strLE s t = true ∨ strLE t s = true := by
  unfold strLE strLT
  cases h : charListLT t.toList s.toList with
  | false => left; rfl
  | true =>
    right
    rw [charListLT_asymm h]
    rfl

theorem charListLT_le_trans {la lb lc : List Char} (h₁ : charListLT lb la = false)
    (h₂ : charListLT lc lb = false) : charListLT lc la = false := by
  cases hca : charListLT lc la with
  | false => rfl
  | true =>
    exfalso
    cases hbc : charListLT lb lc with
    | true =>
      rw [charListLT_trans hbc hca] at h₁
      cases h₁
    | false =>
      have hbceq : lb = lc := charListLT_connex hbc h₂
      rw [hbceq, hca] at h₁
      cases h₁

theorem strLE_trans {a b c : String} (h₁ : strLE a b = true) (h₂ : strLE b c = true) :
    strLE a c = true := by
  unfold strLE strLT at h₁ h₂ ⊢
  rw [Bool.not_eq_true'] at h₁ h₂ ⊢
  exact charListLT_le_trans h₁ h₂

theorem strLE_antisymm {a b : String} (h₁ : strLE a b = true) (h₂ : strLE b a = true) :
    a = b := by
  unfold strLE strLT at h₁ h₂
  rw [Bool.not_eq_true'] at h₁ h₂
  have hd : a.toList = b.toList := charListLT_connex h₂ h₁
  exact String.ext (by simpa [String.toList] using hd)

/-! The relation `nameLEr` is a total preorder and `orderingLEr` a total
preorder, as needed for sortedness of the insertion sorts. -/

theorem nameLEr_total (a b : Participant) : nameLEr a b ∨ nameLEr b a :=
  strLE_total _ _

theorem nameLEr_trans {a b c : Participant} (h₁ : nameLEr a b) (h₂ : nameLEr b c) :
    nameLEr a c :=
  strLE_trans h₁ h₂

theorem orderingLEr_total (a b : Participant) : orderingLEr a b ∨ orderingLEr b a := by
  unfold orderingLEr orderingLE
  rcases Nat.le_total (a.ordering.getD 0) (b.ordering.getD 0) with h | h
  · exact Or.inl (by simpa using h)
  · exact Or.inr (by simpa using h)

theorem orderingLEr_trans {a b c : Participant} (h₁ : orderingLEr a b)
    (h₂ : orderingLEr b c) : orderingLEr a c := by
  unfold orderingLEr orderingLE at h₁ h₂ ⊢
  simp only [decide_eq_true_eq] at h₁ h₂ ⊢
  omega

/-! Structure of the ordering assignment loop. -/

theorem assign_orderings_person_map (rs : Bool) :
    ∀ (k : Nat) (l : List Participant),
      (assign_orderings rs k l).map (fun q => q.person) = l.map (fun q => q.person)
  | _, [] => rfl
  | k, part :: rest => by
    rw [assign_orderings, List.map_cons, List.map_cons,
      assign_orderings_person_map rs (k + 1) rest]

theorem assign_orderings_some (rs : Bool) :
    ∀ (k : Nat) (l : List Participant) (q : Participant),
      q ∈ assign_orderings rs k l → q.ordering.isSome = true
  | _, [], _, hq => by cases hq
  | k, part :: rest, q, hq => by
    rw [assign_orderings] at hq
    rcases List.mem_cons.mp hq with rfl | hq
    · rfl
    · exact assign_orderings_some rs (k + 1) rest q hq

theorem assign_orderings_min (rs : Bool) :
    ∀ (k : Nat) (l : List Participant) (q : Participant),
      q ∈ assign_orderings rs k l → k * 10 ≤ q.ordering.getD 0
  | _, [], _, hq => by cases hq
  | k, part :: rest, q, hq => by
    rw [assign_orderings] at hq
    rcases List.mem_cons.mp hq with rfl | hq
    · simp
    · have := assign_orderings_min rs (k + 1) rest q hq
      omega

theorem assign_orderings_sorted (rs : Bool) :
    ∀ (k : Nat) (l : List Participant), List.Sorted orderingLEr (assign_orderings rs k l)
  | _, [] => List.sorted_nil
  | k, part :: rest => by
    rw [assign_orderings]
    rw [List.sorted_cons]
    refine ⟨fun q hq => ?_, assign_orderings_sorted rs (k + 1) rest⟩
    have := assign_orderings_min rs (k + 1) rest q hq
    unfold orderingLEr orderingLE
    simp only [decide_eq_true_eq, Option.getD_some]
    omega

/-- Inversion of a successful draw: the resulting state keeps the name,
stores the seed that drove the shuffle, and holds exactly the shuffled,
renumbered participant rows. -/
theorem generate_ok_inv {sample : Nat → List Participant → List Participant}
    {ns : Nat} {s : SecretSanta} {force rs : Bool} {s' : SecretSanta}
    (h : generate_ordering sample ns s force rs = (Except.ok (), s')) :
    s'.participants =
      assign_orderings rs 0
        (sample (if s.seed.isNone || force then ns else s.seed.getD 0)
          (s.participants.insertionSort nameLEr)) ∧
    s'.seed = some (if s.seed.isNone || force then ns else s.seed.getD 0) ∧
    s'.name = s.name := by
  unfold generate_ordering at h
  by_cases hg : (!force && s.participants.any fun p => p.ordering.isSome) = true
  · rw [if_pos hg] at h
    cases h
  · rw [if_neg hg] at h
    simp only [Prod.mk.injEq] at h
    rw [← h.2]
    exact ⟨rfl, rfl, rfl⟩

/-- After a draw, the ordered list is exactly the shuffled list projected to
persons: every row has an ordering, the orderings are already ascending, so
the filter keeps everything and the sort is the identity. -/
theorem get_ordered_list_of_assigned {s : SecretSanta} {rs : Bool} {L : List Participant}
    (hp : s.participants = assign_orderings rs 0 L) :
    get_ordered_list s = L.map (fun q => q.person) := by
  unfold get_ordered_list
  rw [hp, List.filter_eq_self.mpr (assign_orderings_some rs 0 L),
    (assign_orderings_sorted rs 0 L).insertionSort_eq]
  exact assign_orderings_person_map rs 0 L

/-- Pairwise-distinct normalized names over a person list. -/
def namesNodup (l : List Person) : Prop :=
  (l.map (fun p => normalize_name p.name)).Nodup

theorem perm_namesNodup {l₁ l₂ : List Person} (hp : l₁.Perm l₂)
    (h : namesNodup l₂) : namesNodup l₁ :=
  ((hp.map _).nodup_iff).mpr h

/-- Under distinct normalized names, `list.index` finds a member back at its
own position. -/
theorem list_index_self {l : List Person} (hnd : namesNodup l) {i : Nat}
    (h : i < l.length) : list_index l l[i] = some i := by
  induction l generalizing i with
  | nil => cases h
  | cons q rest ih =>
    unfold namesNodup at hnd
    rw [List.map_cons, List.nodup_cons] at hnd
    obtain ⟨hq, hrest⟩ := hnd
    cases i with
    | zero =>
      rw [List.getElem_cons_zero, list_index]
      simp [personEq]
    | succ i =>
      have h' : i < rest.length := by simpa using h
      rw [List.getElem_cons_succ, list_index]
      have hne : personEq q rest[i] = false := by
        rw [Bool.eq_false_iff]
        intro htrue
        rw [personEq, beq_iff_eq] at htrue
        refine hq ?_
        rw [htrue]
        exact List.mem_map_of_mem _ (List.getElem_mem h')
      rw [if_neg (by simp [hne]), ih hrest h']
      rfl

/-- Distinct positions in a list with distinct normalized names hold persons
the program considers different. -/
theorem get_names_ne {l : List Person} (hnd : namesNodup l) {i j : Nat}
    (hi : i < l.length) (hj : j < l.length) (hij : i ≠ j) :
    personEq l[i] l[j] = false := by
  rw [Bool.eq_false_iff]
  intro htrue
  rw [personEq, beq_iff_eq] at htrue
  unfold namesNodup at hnd
  refine hij ?_
  have hi' : i < (l.map (fun p => normalize_name p.name)).length := by simpa using hi
  have hj' : j < (l.map (fun p => normalize_name p.name)).length := by simpa using hj
  have heq : (l.map (fun p => normalize_name p.name)).get ⟨i, hi'⟩ =
      (l.map (fun p => normalize_name p.name)).get ⟨j, hj'⟩ := by
    simp only [List.get_eq_getElem, List.getElem_map]
    exact htrue
  have h2 := (List.Nodup.get_inj_iff hnd).mp heq
  simpa using h2

theorem has_who_get {l : List Person} (hnd : namesNodup l) {i : Nat} (h : i < l.length) :
    has_who_list l l[i] =
      Except.ok (l.get ⟨(i + 1) % l.length,
        Nat.mod_lt _ (Nat.lt_of_le_of_lt (Nat.zero_le _) h)⟩) := by
  obtain ⟨hlt, heq⟩ := has_who_list_ok (list_index_self hnd h)
  rw [heq]

/-- Python `(i - 1) % n` on integers, in terms of natural numbers. -/
theorem int_pred_mod {i n : Nat} (h : i < n) :
    ((((i : Int) - 1) % (n : Int))).toNat = if i = 0 then n - 1 else i - 1 := by
  by_cases h0 : i = 0
  · subst h0
    rw [if_pos rfl, Nat.cast_zero]
    have h1 : ((0 : Int) - 1) % (n : Int) = ((n : Int) - 1) % (n : Int) := by
      have h2 : ((0 : Int) - 1) = ((n : Int) - 1) + (n : Int) * (-1) := by ring
      rw [h2, Int.add_mul_emod_self_left]
    rw [h1, Int.emod_eq_of_lt (by omega) (by omega)]
    omega
  · rw [if_neg h0, Int.emod_eq_of_lt (by omega) (by omega)]
    omega

theorem who_has_get {l : List Person} (hnd : namesNodup l) {i : Nat} (h : i < l.length) :
    who_has_list l l[i] =
      Except.ok (l.get ⟨(if i = 0 then l.length - 1 else i - 1), by
        rcases Nat.eq_zero_or_pos i with h0 | h0
        · rw [if_pos h0]; omega
        · rw [if_neg (by omega)]; omega⟩) := by
  obtain ⟨hlt, heq⟩ := who_has_list_ok (list_index_self hnd h)
  rw [heq]
  have hfin : (⟨((((i : Int) - 1) % (l.length : Int))).toNat, hlt⟩ : Fin l.length) =
      ⟨(if i = 0 then l.length - 1 else i - 1), by
        rcases Nat.eq_zero_or_pos i with h0 | h0
        · rw [if_pos h0]; omega
        · rw [if_neg (by omega)]; omega⟩ :=
    Fin.ext (int_pred_mod h)
  rw [hfin]

/-! Index arithmetic for the cycle. -/

theorem succ_mod_ne {i n : Nat} (h : i < n) (h2 : 2 ≤ n) : (i + 1) % n ≠ i := by
  rcases Nat.lt_or_ge (i + 1) n with hlt | hge
  · rw [Nat.mod_eq_of_lt hlt]; omega
  · have he : i + 1 = n := by omega
    rw [he, Nat.mod_self]; omega

theorem add_mod_ne {i k n : Nat} (hi : i < n) (hk0 : 0 < k) (hkn : k < n) :
    (i + k) % n ≠ i := by
  rcases Nat.lt_or_ge (i + k) n with hlt | hge
  · rw [Nat.mod_eq_of_lt hlt]; omega
  · have h2 : i + k - n < n := by omega
    rw [Nat.mod_eq_sub_mod hge, Nat.mod_eq_of_lt h2]
    omega

theorem succ_mod_pred {i n : Nat} (h : i < n) :
    (if (i + 1) % n = 0 then n - 1 else (i + 1) % n - 1) = i := by
  rcases Nat.lt_or_ge (i + 1) n with hlt | hge
  · rw [Nat.mod_eq_of_lt hlt, if_neg (by omega)]
    omega
  · have he : i + 1 = n := by omega
    rw [he, Nat.mod_self, if_pos rfl]
    omega

theorem pred_succ_mod {i n : Nat} (h : i < n) :
    ((if i = 0 then n - 1 else i - 1) + 1) % n = i := by
  by_cases h0 : i = 0
  · subst h0
    rw [if_pos rfl]
    have he : n - 1 + 1 = n := by omega
    rw [he, Nat.mod_self]
  · rw [if_neg h0]
    have he : i - 1 + 1 = i := by omega
    rw [he, Nat.mod_eq_of_lt h]

/-- Summary of a successful draw: the ordered list is a permutation of the
participants (as persons), and every resulting row is ordered and present in
the ordered list. -/
theorem generate_post {sample : Nat → List Participant → List Participant}
    {ns : Nat} {s : SecretSanta} {force rs : Bool} {s' : SecretSanta}
    (hsample : returnsPerm sample)
    (hgen : generate_ordering sample ns s force rs = (Except.ok (), s')) :
    (get_ordered_list s').Perm (s.participants.map (fun q => q.person)) ∧
    (∀ part ∈ s'.participants, part.ordering.isSome = true ∧
      part.person ∈ get_ordered_list s') := by
  obtain ⟨hparts, hseed, hname⟩ := generate_ok_inv hgen
  have hol : get_ordered_list s' =
      (sample (if s.seed.isNone || force then ns else s.seed.getD 0)
        (s.participants.insertionSort nameLEr)).map (fun q => q.person) :=
    get_ordered_list_of_assigned hparts
  have hLperm : (sample (if s.seed.isNone || force then ns else s.seed.getD 0)
      (s.participants.insertionSort nameLEr)).Perm s.participants :=
    (hsample _ _).trans (List.perm_insertionSort _ _)
  constructor
  · rw [hol]; exact hLperm.map _
  · intro part hpart
    rw [hparts] at hpart
    refine ⟨assign_orderings_some rs 0 _ part hpart, ?_⟩
    rw [hol]
    have hm : part.person ∈ (assign_orderings rs 0
        (sample (if s.seed.isNone || force then ns else s.seed.getD 0)
          (s.participants.insertionSort nameLEr))).map (fun q => q.person) :=
      List.mem_map_of_mem _ hpart
    rwa [assign_orderings_person_map] at hm

theorem has_who_eq_list (s : SecretSanta) (p : Person) :
    has_who s p = has_who_list (get_ordered_list s) p := rfl

theorem who_has_eq_list (s : SecretSanta) (p : Person) :
    who_has s p = who_has_list (get_ordered_list s) p := rfl

/-- C1 (amended): for every successfully drawn engine with N ≥ 2 participants
whose names are ASCII and whose normalized names are pairwise distinct,
every participant's giftee query succeeds and returns a person the program
considers different from the participant (no self-gifting).  The
distinct-names hypothesis is forced by the counterexample: two participants
whose names normalize identically are equal under the program's
`Person.__eq__`, so one becomes its own giftee.  The ASCII hypothesis
confines the statement to the domain on which the embedded normalization
coincides with Python's (`str.lower` does full Unicode case mapping, so
e.g. a non-breaking space or an accented capital can make two names collide
in the program while staying distinct under an ASCII-only normalization). -/
theorem draw_derangement
    (sample : Nat → List Participant → List Participant) (ns : Nat)
    (s : SecretSanta) (force rs : Bool) (s' : SecretSanta)
    (hsample : returnsPerm sample)
    (hgen : generate_ordering sample ns s force rs = (Except.ok (), s'))
    (hN : 2 ≤ s.participants.length)
    (hnd : (s.participants.map (fun q => normalize_name q.person.name)).Nodup)
    (_hascii : ∀ q ∈ s.participants, asciiName q.person.name = true)
    (part : Participant) (hp : part ∈ s'.participants)
    (_ho : part.ordering.isSome = true) :
    ∃ g, has_who s' part.person = Except.ok g ∧ personEq g part.person = false := by
  obtain ⟨hperm, hmem⟩ := generate_post hsample hgen
  have hndl : namesNodup (get_ordered_list s') := by
    refine perm_namesNodup hperm ?_
    unfold namesNodup
    rw [List.map_map]
    simpa [Function.comp] using hnd
  have hlen : (get_ordered_list s').length = s.participants.length := by
    rw [hperm.length_eq, List.length_map]
  obtain ⟨i, hi, hget⟩ := List.getElem_of_mem ((hmem part hp).2)
  have hw := has_who_get hndl hi
  rw [hget] at hw
  refine ⟨(get_ordered_list s').get ⟨(i + 1) % (get_ordered_list s').length,
    Nat.mod_lt _ (Nat.lt_of_le_of_lt (Nat.zero_le _) hi)⟩, ?_, ?_⟩
  · rw [has_who_eq_list]
    exact hw
  · rw [← hget, List.get_eq_getElem]
    refine get_names_ne hndl _ hi (succ_mod_ne hi ?_)
    rw [hlen]
    exact hN

/-- C1 counterexample: the claim as stated (without the distinct-names
hypothesis) is false.  `dupTwo` holds two distinct participant rows, for the
persons named "Jo Anne" and "joanne", whose normalized names coincide; after
a successful draw of its N = 2 participants, the row for "Jo Anne" is
ordered, yet `has_who` returns "joanne", which the program's person equality
identifies with "Jo Anne" herself. -/
theorem draw_derangement_counterexample :
    returnsPerm idSample ∧
    generate_ordering idSample 0 dupTwo false true = (Except.ok (), dupTwoDrawn) ∧
    2 ≤ dupTwo.participants.length ∧
    { person := joA, ordering := some 0, seen := none } ∈ dupTwoDrawn.participants ∧
    has_who dupTwoDrawn joA = Except.ok joB ∧
    personEq joB joA = true :=
  ⟨fun _ l => List.Perm.refl l, rfl, by decide, by decide, rfl, by decide⟩

/-- Iterating `has_who` walks the ordered list cyclically. -/
theorem has_who_iter_get {s' : SecretSanta}
    (hndl : namesNodup (get_ordered_list s')) {i : Nat}
    (h : i < (get_ordered_list s').length) (k : Nat) :
    has_who_iter s' (get_ordered_list s')[i] k =
      some ((get_ordered_list s').get
        ⟨(i + k) % (get_ordered_list s').length,
         Nat.mod_lt _ (Nat.lt_of_le_of_lt (Nat.zero_le _) h)⟩) := by
  induction k with
  | zero =>
    have hidx : (i + 0) % (get_ordered_list s').length = i := by
      rw [Nat.add_zero, Nat.mod_eq_of_lt h]
    simp only [has_who_iter, hidx, List.get_eq_getElem]
  | succ k ih =>
    rw [has_who_iter, ih, Option.some_bind]
    have hlt : (i + k) % (get_ordered_list s').length < (get_ordered_list s').length :=
      Nat.mod_lt _ (Nat.lt_of_le_of_lt (Nat.zero_le _) h)
    have hw := has_who_get hndl hlt
    rw [List.get_eq_getElem, has_who_eq_list, hw]
    have hidx : ((i + k) % (get_ordered_list s').length + 1) %
        (get_ordered_list s').length =
        (i + (k + 1)) % (get_ordered_list s').length := by
      rw [Nat.mod_add_mod, Nat.add_assoc]
    simp only [Except.toOption, hidx, List.get_eq_getElem]

/-- C2 (amended): on a successfully drawn engine with N ≥ 2 participants
whose names are ASCII and whose normalized names are pairwise distinct,
iterating `has_who` exactly N times from any participant returns that
participant, and no positive number of iterations below N does: the draw is
one single N-cycle.  The distinct-names hypothesis is forced by the
counterexample; the ASCII hypothesis confines the statement to the domain on
which the embedded normalization coincides with Python's full-Unicode
`str.lower` and whitespace class. -/
theorem draw_cycle_closure
    (sample : Nat → List Participant → List Participant) (ns : Nat)
    (s : SecretSanta) (force rs : Bool) (s' : SecretSanta)
    (hsample : returnsPerm sample)
    (hgen : generate_ordering sample ns s force rs = (Except.ok (), s'))
    (_hN : 2 ≤ s.participants.length)
    (hnd : (s.participants.map (fun q => normalize_name q.person.name)).Nodup)
    (_hascii : ∀ q ∈ s.participants, asciiName q.person.name = true)
    (part : Participant) (hp : part ∈ s'.participants)
    (_ho : part.ordering.isSome = true) :
    has_who_iter s' part.person s.participants.length = some part.person ∧
    ∀ k, 0 < k → k < s.participants.length → ∀ q,
      has_who_iter s' part.person k = some q → personEq q part.person = false := by
  obtain ⟨hperm, hmem⟩ := generate_post hsample hgen
  have hndl : namesNodup (get_ordered_list s') := by
    refine perm_namesNodup hperm ?_
    unfold namesNodup
    rw [List.map_map]
    simpa [Function.comp] using hnd
  have hlen : (get_ordered_list s').length = s.participants.length := by
    rw [hperm.length_eq, List.length_map]
  obtain ⟨i, hi, hget⟩ := List.getElem_of_mem ((hmem part hp).2)
  constructor
  · have hit := has_who_iter_get hndl hi s.participants.length
    rw [hget] at hit
    rw [hit]
    have hidx : (i + s.participants.length) % (get_ordered_list s').length = i := by
      rw [← hlen, Nat.add_mod_right, Nat.mod_eq_of_lt hi]
    simp only [hidx, List.get_eq_getElem]
    rw [hget]
  · intro k hk0 hkN q hq
    have hit := has_who_iter_get hndl hi k
    rw [hget] at hit
    rw [hit] at hq
    injection hq with hq2
    rw [← hq2, ← hget, List.get_eq_getElem]
    refine get_names_ne hndl _ hi (add_mod_ne hi hk0 ?_)
    rw [hlen]
    exact hkN

/-- C2 counterexample: with the name collision of `dupTwo` (N = 2), a single
application of `has_who` already returns a person equal (under the program's
equality) to the starting participant, so the claim as stated fails. -/
theorem draw_cycle_closure_counterexample :
    returnsPerm idSample ∧
    generate_ordering idSample 0 dupTwo false true = (Except.ok (), dupTwoDrawn) ∧
    2 ≤ dupTwo.participants.length ∧
    { person := joA, ordering := some 0, seen := none } ∈ dupTwoDrawn.participants ∧
    (0 < 1 ∧ 1 < dupTwo.participants.length) ∧
    has_who_iter dupTwoDrawn joA 1 = some joB ∧
    personEq joB joA = true :=
  ⟨fun _ l => List.Perm.refl l, rfl, by decide, by decide, by decide, rfl, by decide⟩

/-- C3 (amended): on a successfully drawn engine whose participants have
ASCII names with pairwise-distinct normalizations, `who_has` undoes
`has_who` and vice versa on every participant.  The distinct-names
hypothesis is forced by the counterexample; the ASCII hypothesis confines
the statement to the domain on which the embedded normalization coincides
with Python's full-Unicode `str.lower` and whitespace class. -/
theorem draw_inverse
    (sample : Nat → List Participant → List Participant) (ns : Nat)
    (s : SecretSanta) (force rs : Bool) (s' : SecretSanta)
    (hsample : returnsPerm sample)
    (hgen : generate_ordering sample ns s force rs = (Except.ok (), s'))
    (hnd : (s.participants.map (fun q => normalize_name q.person.name)).Nodup)
    (_hascii : ∀ q ∈ s.participants, asciiName q.person.name = true)
    (part : Participant) (hp : part ∈ s'.participants) :
    (∃ g, has_who s' part.person = Except.ok g ∧
      who_has s' g = Except.ok part.person) ∧
    (∃ r, who_has s' part.person = Except.ok r ∧
      has_who s' r = Except.ok part.person) := by
  obtain ⟨hperm, hmem⟩ := generate_post hsample hgen
  have hndl : namesNodup (get_ordered_list s') := by
    refine perm_namesNodup hperm ?_
    unfold namesNodup
    rw [List.map_map]
    simpa [Function.comp] using hnd
  obtain ⟨i, hi, hget⟩ := List.getElem_of_mem ((hmem part hp).2)
  constructor
  · have hw := has_who_get hndl hi
    rw [hget] at hw
    refine ⟨(get_ordered_list s').get ⟨(i + 1) % (get_ordered_list s').length,
      Nat.mod_lt _ (Nat.lt_of_le_of_lt (Nat.zero_le _) hi)⟩, ?_, ?_⟩
    · rw [has_who_eq_list]
      exact hw
    · have hlt : (i + 1) % (get_ordered_list s').length <
          (get_ordered_list s').length :=
        Nat.mod_lt _ (Nat.lt_of_le_of_lt (Nat.zero_le _) hi)
      have hwh := who_has_get hndl hlt
      rw [List.get_eq_getElem, who_has_eq_list, hwh]
      have hidx := succ_mod_pred (n := (get_ordered_list s').length) hi
      simp only [hidx, List.get_eq_getElem]
      rw [hget]
  · have hwh := who_has_get hndl hi
    rw [hget] at hwh
    refine ⟨(get_ordered_list s').get
      ⟨(if i = 0 then (get_ordered_list s').length - 1 else i - 1), by
        rcases Nat.eq_zero_or_pos i with h0 | h0
        · rw [if_pos h0]; omega
        · rw [if_neg (by omega)]; omega⟩, ?_, ?_⟩
    · rw [who_has_eq_list]
      exact hwh
    · have hjlt : (if i = 0 then (get_ordered_list s').length - 1 else i - 1) <
          (get_ordered_list s').length := by
        rcases Nat.eq_zero_or_pos i with h0 | h0
        · rw [if_pos h0]; omega
        · rw [if_neg (by omega)]; omega
      have hw := has_who_get hndl hjlt
      rw [List.get_eq_getElem, has_who_eq_list, hw]
      have hidx := pred_succ_mod (n := (get_ordered_list s').length) hi
      simp only [hidx, List.get_eq_getElem]
      rw [hget]

theorem swapSample_perm : returnsPerm swapSample := by
  intro seed l
  match l with
  | [] => exact List.Perm.refl _
  | [a] => exact List.Perm.refl _
  | a :: b :: t => exact List.Perm.swap a b t

/-- C3 counterexample: in `dupThree` the persons "Jo Anne" and "joanne"
collide while "Bob" sits between them in the drawn cycle; `has_who(Bob)`
returns "joanne", but `who_has("joanne")` looks up the first index of that
normalized name (the row of "Jo Anne") and so returns "joanne", not Bob:
`who_has(has_who(Bob)) != Bob`, refuting the claim as stated. -/
theorem draw_inverse_counterexample :
    returnsPerm swapSample ∧
    generate_ordering swapSample 0 dupThree false true = (Except.ok (), dupThreeDrawn) ∧
    { person := bob, ordering := some 10, seen := none } ∈ dupThreeDrawn.participants ∧
    has_who dupThreeDrawn bob = Except.ok joB ∧
    who_has dupThreeDrawn joB = Except.ok joB ∧
    personEq joB bob = false :=
  ⟨swapSample_perm, rfl, by decide, rfl, rfl, by decide⟩

/-- C1 witness: the derangement theorem applied to the drawn three-person
engine at the participant row of Alice. -/
theorem draw_derangement_witness :
    ∃ g, has_who drawnThree alice = Except.ok g ∧ personEq g alice = false :=
  draw_derangement idSample 0 (mkSecretSanta "t" [alice, bob, carol] (some 7))
    false true drawnThree (fun _ l => List.Perm.refl l) rfl (by decide) (by decide)
    (by decide) { person := alice, ordering := some 0, seen := none } (by decide) rfl

/-- C2 witness: the cycle-closure theorem applied to the drawn three-person
engine at Alice, with the below-N clause instantiated at one iteration. -/
theorem draw_cycle_closure_witness :
    has_who_iter drawnThree alice 3 = some alice ∧ personEq bob alice = false := by
  have h := draw_cycle_closure idSample 0 (mkSecretSanta "t" [alice, bob, carol] (some 7))
    false true drawnThree (fun _ l => List.Perm.refl l) rfl (by decide) (by decide)
    (by decide) { person := alice, ordering := some 0, seen := none } (by decide) rfl
  exact ⟨h.1, h.2 1 (by decide) (by decide) bob rfl⟩

/-- C3 witness: the inverse theorem applied to the drawn three-person engine
at Alice. -/
theorem draw_inverse_witness :
    (∃ g, has_who drawnThree alice = Except.ok g ∧
      who_has drawnThree g = Except.ok alice) ∧
    (∃ r, who_has drawnThree alice = Except.ok r ∧
      has_who drawnThree r = Except.ok alice) :=
  draw_inverse idSample 0 (mkSecretSanta "t" [alice, bob, carol] (some 7))
    false true drawnThree (fun _ l => List.Perm.refl l) rfl (by decide) (by decide)
    { person := alice, ordering := some 0, seen := none } (by decide)

/-- Two sorted participant lists that are permutations of one another and
carry pairwise-distinct normalized names are equal: the deterministic base
ordering of the draw does not depend on insertion order. -/
theorem sorted_perm_nodup_eq {l₁ l₂ : List Participant}
    (hp : l₁.Perm l₂) (hs₁ : List.Sorted nameLEr l₁) (hs₂ : List.Sorted nameLEr l₂)
    (hnd : (l₁.map (fun q => normalize_name q.person.name)).Nodup) : l₁ = l₂ := by
  induction l₁ generalizing l₂ with
  | nil => exact hp.nil_eq
  | cons a t₁ ih =>
    cases l₂ with
    | nil =>
      have hl := hp.length_eq
      simp at hl
    | cons b t₂ =>
      have hab : a = b := by
        by_contra hne
        have ha : a ∈ b :: t₂ := hp.mem_iff.mp (List.mem_cons_self a t₁)
        have hb : b ∈ a :: t₁ := hp.symm.mem_iff.mp (List.mem_cons_self b t₂)
        have ha2 : a ∈ t₂ := by
          rcases List.mem_cons.mp ha with h | h
          · exact absurd h hne
          · exact h
        have hb2 : b ∈ t₁ := by
          rcases List.mem_cons.mp hb with h | h
          · exact absurd h.symm hne
          · exact h
        have hle₁ : nameLEr a b := List.rel_of_sorted_cons hs₁ b hb2
        have hle₂ : nameLEr b a := List.rel_of_sorted_cons hs₂ a ha2
        have hname : normalize_name a.person.name = normalize_name b.person.name :=
          strLE_antisymm hle₁ hle₂
        rw [List.map_cons, List.nodup_cons] at hnd
        exact hnd.1 (by rw [hname]; exact List.mem_map_of_mem _ hb2)
      subst hab
      have ht : t₁.Perm t₂ := hp.cons_inv
      rw [List.map_cons, List.nodup_cons] at hnd
      rw [ih ht hs₁.of_cons hs₂.of_cons hnd.2]

/-- An undrawn, unseen participant list is determined by its persons. -/
theorem parts_of_none {l : List Participant}
    (h : ∀ q ∈ l, q.ordering = none ∧ q.seen = none) :
    l = (l.map (fun q => q.person)).map (fun p => { person := p }) := by
  induction l with
  | nil => rfl
  | cons a t ih =>
    rw [List.map_cons, List.map_cons]
    have ha := h a (List.mem_cons_self a t)
    have ht := ih (fun q hq => h q (List.mem_cons_of_mem a hq))
    cases a with
    | mk p o se =>
      obtain ⟨h1, h2⟩ := ha
      simp only at h1 h2
      rw [← ht]
      simp only [List.cons.injEq]
      exact ⟨by rw [h1, h2], trivial⟩

/-- C5 (amended): the draw is a deterministic function of the seed and the
participant set alone, provided the participants' names are ASCII and
pairwise distinct after normalization.  Two undrawn engines with the same
non-null seed and the same persons, inserted in any orders, draw identical
participant rows — even with unrelated fresh-seed inputs, because a fixed
seed is reused when `force=False`.  The distinctness hypothesis is forced by
the counterexample: with colliding names the stable sort keeps the two
insertion orders apart and the rows receive swapped slots.  The ASCII
hypothesis (which `hperm` transfers to `s₂`) confines the statement to the
domain on which the embedded normalization coincides with Python's
full-Unicode `str.lower` and whitespace class, so that names distinct here
are distinct sort keys in the program as well. -/
theorem generate_reproducible
    (sample : Nat → List Participant → List Participant) (ns₁ ns₂ : Nat)
    (s₁ s₂ : SecretSanta) (v : Nat)
    (h₁ : ∀ q ∈ s₁.participants, q.ordering = none ∧ q.seen = none)
    (h₂ : ∀ q ∈ s₂.participants, q.ordering = none ∧ q.seen = none)
    (hperm : (s₁.participants.map (fun q => q.person)).Perm
      (s₂.participants.map (fun q => q.person)))
    (hnd : (s₁.participants.map (fun q => normalize_name q.person.name)).Nodup)
    (_hascii : ∀ q ∈ s₁.participants, asciiName q.person.name = true)
    (hs₁ : s₁.seed = some v) (hs₂ : s₂.seed = some v) :
    (generate_ordering sample ns₁ s₁ false true).1 = Except.ok () ∧
    (generate_ordering sample ns₁ s₁ false true).2.participants =
      (generate_ordering sample ns₂ s₂ false true).2.participants := by
  letI : IsTotal Participant nameLEr := ⟨nameLEr_total⟩
  letI : IsTrans Participant nameLEr := ⟨fun a b c h1 h2 => nameLEr_trans h1 h2⟩
  have hg₁ : (s₁.participants.any fun p => p.ordering.isSome) = false := by
    rw [List.any_eq_false]
    intro p hp
    rw [(h₁ p hp).1]
    simp
  have hg₂ : (s₂.participants.any fun p => p.ordering.isSome) = false := by
    rw [List.any_eq_false]
    intro p hp
    rw [(h₂ p hp).1]
    simp
  have hrec : s₁.participants.Perm s₂.participants := by
    rw [parts_of_none h₁, parts_of_none h₂]
    exact hperm.map _
  have hnds : ((s₁.participants.insertionSort nameLEr).map
      (fun q => normalize_name q.person.name)).Nodup :=
    ((List.perm_insertionSort nameLEr s₁.participants).map _).nodup_iff.mpr hnd
  have hsorted : s₁.participants.insertionSort nameLEr =
      s₂.participants.insertionSort nameLEr :=
    sorted_perm_nodup_eq
      (((List.perm_insertionSort nameLEr s₁.participants).trans hrec).trans
        (List.perm_insertionSort nameLEr s₂.participants).symm)
      (List.sorted_insertionSort nameLEr s₁.participants)
      (List.sorted_insertionSort nameLEr s₂.participants)
      hnds
  unfold generate_ordering
  rw [hg₁, hg₂, hs₁, hs₂, hsorted]
  simp

/-- A possible output of the external shuffle: reverse the sorted list. -/
def revSample : Nat → List Participant → List Participant := fun _ l => l.reverse

/-- Two engines with the same seed and the same people inserted in opposite
orders. -/
def repA : SecretSanta := mkSecretSanta "r1" [alice, bob] (some 5)

/-- The mirror-insertion engine of `repA`. -/
def repB : SecretSanta := mkSecretSanta "r2" [bob, alice] (some 5)

/-- C5 witness: the reproducibility theorem applied to `repA`/`repB` with a
nontrivial deterministic shuffle and different fresh-seed inputs. -/
theorem generate_reproducible_witness :
    (generate_ordering revSample 3 repA false true).1 = Except.ok () ∧
    (generate_ordering revSample 3 repA false true).2.participants =
      (generate_ordering revSample 7 repB false true).2.participants :=
  generate_reproducible revSample 3 7 repA repB 5
    (by decide) (by decide) (by decide) (by decide) (by decide) rfl rfl

/-- Two engines holding the same two rows — whose raw names "Jo Anne" and
"joanne" normalize identically — inserted in opposite orders. -/
def dupRepA : SecretSanta := mkSecretSanta "d1" [joA, joB] (some 5)

/-- The mirror-insertion engine of `dupRepA`. -/
def dupRepB : SecretSanta := mkSecretSanta "d2" [joB, joA] (some 5)

/-- C5 counterexample: the claim as stated is false.  `dupRepA` and
`dupRepB` hold the same set of participant rows and the same seed, yet
because the two rows tie on the normalized sort key, the stable sort keeps
the two insertion orders apart and the very same run of `generate` assigns
the "Jo Anne" row slot 0 in one engine and slot 10 in the other: the
assignment is not a function of the seed and the participant set alone. -/
theorem generate_reproducible_counterexample :
    dupRepA.participants.Perm dupRepB.participants ∧
    dupRepA.seed = dupRepB.seed ∧
    (generate_ordering idSample 0 dupRepA false true).1 = Except.ok () ∧
    (generate_ordering idSample 0 dupRepB false true).1 = Except.ok () ∧
    { person := joA, ordering := some 0, seen := none }
      ∈ (generate_ordering idSample 0 dupRepA false true).2.participants ∧
    { person := joA, ordering := some 10, seen := none }
      ∈ (generate_ordering idSample 0 dupRepB false true).2.participants :=
  ⟨by decide, rfl, rfl, rfl, by decide, by decide⟩

theorem mkSecretSanta_participants (name : String) (people : List Person)
    (seed : Option Nat) :
    (mkSecretSanta name people seed).participants =
      people.map (fun p => { person := p }) := by
  suffices h : ∀ (init : SecretSanta),
      (people.foldl add_participant init).participants =
        init.participants ++ people.map (fun p => { person := p }) by
    rw [mkSecretSanta, h]
    rfl
  intro init
  induction people generalizing init with
  | nil => simp
  | cons p t ih =>
    rw [List.foldl_cons, ih, List.map_cons]
    simp [add_participant]

theorem update_seen_list_ordering {person : Person} {now : Nat} :
    ∀ {l l' : List Participant}, update_seen_list person now l = some l' →
      ∀ q ∈ l', ∃ q0 ∈ l, q.ordering = q0.ordering := by
  intro l
  induction l with
  | nil =>
    intro l' h
    cases h
  | cons part rest ih =>
    intro l' h q hq
    rw [update_seen_list] at h
    by_cases hc : personEq part.person person = true
    · rw [if_pos (by simp [hc])] at h
      injection h with h
      subst h
      rcases List.mem_cons.mp hq with rfl | hq2
      · exact ⟨part, List.mem_cons_self part rest, rfl⟩
      · exact ⟨q, List.mem_cons_of_mem part hq2, rfl⟩
    · rw [if_neg (by simp [hc])] at h
      cases hrec : update_seen_list person now rest with
      | none =>
        rw [hrec] at h
        cases h
      | some l2 =>
        rw [hrec] at h
        injection h with h
        subst h
        rcases List.mem_cons.mp hq with rfl | hq2
        · exact ⟨q, List.mem_cons_self q rest, rfl⟩
        · obtain ⟨q0, hq0, he⟩ := ih hrec q hq2
          exact ⟨q0, List.mem_cons_of_mem part hq0, he⟩

/-- C8 (amended): the all-or-nothing shape of a draw — every participant
ordered, or none — is an invariant of construction, `generate_ordering`
(successful or failed), `update_seen` and removal, and of `add_participant`
performed on an undrawn engine.  The restriction on `add_participant` is
forced by the counterexample: adding to a drawn engine creates a mixed
state in which exactly the new participant lacks an ordering. -/
theorem all_or_none_invariant (s : SecretSanta) (h : ReachableU s) : AllOrNone s := by
  induction h with
  | init name people seed =>
    right
    intro q hq
    rw [mkSecretSanta_participants] at hq
    obtain ⟨p, hp, rfl⟩ := List.mem_map.mp hq
    rfl
  | add s p hs hnone ih =>
    right
    intro q hq
    simp only [add_participant] at hq
    rcases List.mem_append.mp hq with hq2 | hq2
    · exact hnone q hq2
    · rw [List.mem_singleton.mp hq2]
  | gen s sample ns force rs hs ih =>
    by_cases hg : (!force && s.participants.any fun p => p.ordering.isSome) = true
    · have h2 : (generate_ordering sample ns s force rs).2 = s := by
        unfold generate_ordering
        rw [if_pos hg]
      rw [h2]
      exact ih
    · have h2 : (generate_ordering sample ns s force rs).2.participants =
          assign_orderings rs 0
            (sample (if s.seed.isNone || force then ns else s.seed.getD 0)
              (s.participants.insertionSort nameLEr)) := by
        unfold generate_ordering
        rw [if_neg hg]
      left
      intro q hq
      rw [h2] at hq
      exact assign_orderings_some _ _ _ q hq
  | seen s p now hs ih =>
    cases hu : update_seen_list p now s.participants with
    | none =>
      have h2 : (update_seen s p now).2 = s := by
        unfold update_seen
        rw [hu]
      rw [h2]
      exact ih
    | some l2 =>
      have h2 : (update_seen s p now).2.participants = l2 := by
        unfold update_seen
        rw [hu]
      rcases ih with hall | hnone
      · left
        intro q hq
        rw [h2] at hq
        obtain ⟨q0, hq0, he⟩ := update_seen_list_ordering hu q hq
        rw [he]
        exact hall q0 hq0
      · right
        intro q hq
        rw [h2] at hq
        obtain ⟨q0, hq0, he⟩ := update_seen_list_ordering hu q hq
        rw [he]
        exact hnone q0 hq0
  | remove s n hs ih =>
    cases hf : get_participant_by_name s n with
    | none =>
      have h2 : (remove_person s n).2.2 = s := by
        unfold remove_person
        rw [hf]
      rw [h2]
      exact ih
    | some part =>
      have h2 : (remove_person s n).2.2.participants = s.participants.erase part := by
        unfold remove_person
        rw [hf]
      rcases ih with hall | hnone
      · left
        intro q hq
        rw [h2] at hq
        exact hall q (List.erase_subset _ _ hq)
      · right
        intro q hq
        rw [h2] at hq
        exact hnone q (List.erase_subset _ _ hq)

/-- C8 witness: the amended invariant evaluated on the drawn two-person
engine, reached by construction followed by a draw. -/
theorem all_or_none_invariant_witness : AllOrNone drawnTwo :=
  all_or_none_invariant drawnTwo
    (ReachableU.gen (mkSecretSanta "w" [alice, bob] (some 3)) idSample 0 false true
      (ReachableU.init "w" [alice, bob] (some 3)))

/-- C8 counterexample: the invariant as claimed is not preserved by every
operation — adding Carol to the drawn two-person engine is a reachable
state in which Alice and Bob are ordered but Carol is not. -/
theorem all_or_none_counterexample :
    Reachable (add_participant drawnTwo carol) ∧
    ¬ AllOrNone (add_participant drawnTwo carol) :=
  ⟨Reachable.add drawnTwo carol
      (Reachable.gen (mkSecretSanta "w" [alice, bob] (some 3)) idSample 0 false true
        (Reachable.init "w" [alice, bob] (some 3))),
   by
     unfold AllOrNone
     decide⟩
